import Mathlib

/-!
Verification development for the GridLLM gateway.

The definitions below are shallow embeddings of the TypeScript sources:
the OpenAI-compatible route handlers in server/src/routes/openai.ts and
the worker adapter in client/src/services/OllamaService.ts.  Numeric
JSON values are modelled as Nat or Rat, JS objects as structures with
Option fields for properties that may be absent, and byte streams as
lists of character lists.  Functions of the repository that are only
declared or called here (the worker registry and the job scheduler) are
modelled from the specification and marked as such in their doc
comments.
-/

/-- Result object of a worker generation as consumed by the route layer:
the fields of the Ollama generate response that openai.ts reads.  A
field that the worker may omit is an Option. -/
structure OResult where
  response : Option String := none
  prompt_eval_count : Option Nat := none
  eval_count : Option Nat := none
  done_reason : Option String := none
deriving DecidableEq

/-- Token accounting block of an OpenAI completions response. -/
structure UsageInfo where
  prompt_tokens : Nat
  completion_tokens : Nat
  total_tokens : Nat
deriving DecidableEq

/-- One choice of a non-streaming completions response. -/
structure CompletionsChoice where
  text : String
  index : Nat
  logprobs : Option Nat
  finish_reason : String
deriving DecidableEq

/-- Non-streaming OpenAI completions response object. -/
structure CompletionsResponse where
  id : String
  object : String
  created : Nat
  model : String
  choices : List CompletionsChoice
  usage : UsageInfo
deriving DecidableEq

/-- The finish reason block of convertToOpenAICompletionsResponse
(openai.ts lines 96 to 104): done_reason stop and length are copied,
otherwise a present eval_count equal to zero gives length, otherwise
stop.  The comparison response.eval_count === 0 in JS is false when the
field is absent, hence the strict Option equality here. -/
def finishReasonOf (r : OResult) : String :=
  if r.done_reason = some "stop" then "stop"
  else if r.done_reason = some "length" then "length"
  else if r.eval_count = some 0 then "length"
  else "stop"

/-- Embedding of convertToOpenAICompletionsResponse (openai.ts lines 84
to 125).  nowSec stands for Math.floor(Date.now() / 1000). -/
def convertToOpenAICompletionsResponse (response : OResult)
    (model requestId promptText : String) (echo : Bool)
    (logprobs : Option Nat) (nowSec : Nat) : CompletionsResponse :=
  let text := response.response.getD ""
  let promptTokens := response.prompt_eval_count.getD 0
  let completionTokens := response.eval_count.getD 0
  { id := "cmpl-" ++ requestId
    object := "text_completion"
    created := nowSec
    model := model
    choices := [{ text := if echo then promptText ++ text else text
                  index := 0
                  logprobs := (if logprobs ≠ none then none else none : Option Nat)
                  finish_reason := finishReasonOf response }]
    usage := { prompt_tokens := promptTokens
               completion_tokens := completionTokens
               total_tokens := promptTokens + completionTokens } }

/-- Chunk object handed to the onChunk callback of a streaming
completions job; only its response field is read by the route. -/
structure StreamChunkIn where
  response : Option String := none
deriving DecidableEq

/-- One streaming SSE content frame of the completions route (the
choices array always holds one element, flattened here). -/
structure StreamFrame where
  id : String
  created : Nat
  model : String
  text : String
  finish_reason : Option String
  usage : Option UsageInfo
deriving DecidableEq

/-- An event written to the SSE response: a data frame or the final
DONE sentinel string. -/
inductive SSE where
  | frame (f : StreamFrame)
  | doneSentinel
deriving DecidableEq

/-- One step of the onChunk callback (openai.ts lines 228 to 251):
totalText accumulates the deltas, and the prompt is prepended when echo
is set and the accumulated text equals the current delta.  Returns the
new accumulator together with the emitted frame. -/
def onChunkFrame (echo : Bool) (promptText rid model : String)
    (created : Nat) (totalText : String) (c : StreamChunkIn) :
    String × StreamFrame :=
  let deltaText := c.response.getD ""
  let total := totalText ++ deltaText
  (total,
   { id := "cmpl-" ++ rid
     created := created
     model := model
     text := if echo ∧ total = deltaText then promptText ++ deltaText else deltaText
     finish_reason := none
     usage := none })

/-- Frames produced by running the onChunk callback over a chunk list,
threading the totalText accumulator. -/
def streamFramesAux (echo : Bool) (promptText rid model : String)
    (created : Nat) : String → List StreamChunkIn → List StreamFrame
  | _, [] => []
  | tot, c :: cs =>
    let p := onChunkFrame echo promptText rid model created tot c
    p.2 :: streamFramesAux echo promptText rid model created p.1 cs

/-- All content frames of a streaming completions response, starting
from the empty accumulator. -/
def streamFrames (echo : Bool) (promptText rid model : String)
    (created : Nat) (chunks : List StreamChunkIn) : List StreamFrame :=
  streamFramesAux echo promptText rid model created "" chunks

/-- Final frame built by the onComplete callback (openai.ts lines 252
to 288): empty text, finish_reason stop, and the usage block kept only
when stream_options.include_usage is set. -/
def finalFrame (includeUsage : Bool) (rid model : String) (created : Nat)
    (result : OResult) : StreamFrame :=
  let p := result.prompt_eval_count.getD 0
  let c := result.eval_count.getD 0
  { id := "cmpl-" ++ rid
    created := created
    model := model
    text := ""
    finish_reason := some "stop"
    usage := if includeUsage then some ⟨p, c, p + c⟩ else none }

/-- Full event sequence written to a streaming completions client.
Modelled from the spec for the part outside src: the job scheduler
invokes onChunk once per worker chunk in arrival order and onComplete
exactly once afterwards; the callback bodies themselves are the
translations above of openai.ts. -/
def streamingEvents (echo includeUsage : Bool)
    (promptText rid model : String) (created : Nat)
    (chunks : List StreamChunkIn) (result : OResult) : List SSE :=
  (streamFrames echo promptText rid model created chunks).map SSE.frame
    ++ [SSE.frame (finalFrame includeUsage rid model created result), SSE.doneSentinel]

/-- Claim C1, counterexample: the worker reports done_reason length
(with a nonzero eval_count), yet the final frame of the streaming
response reports finish_reason stop, because the onComplete callback
hard-codes stop.  The claim, as stated, requires length here. -/
theorem c1_counterexample :
    streamingEvents false false "p" "r" "m" 0 []
        { response := some "abc", prompt_eval_count := some 1,
          eval_count := some 3, done_reason := some "length" }
      = [SSE.frame { id := "cmpl-r", created := 0, model := "m", text := "",
                     finish_reason := some "stop", usage := none },
         SSE.doneSentinel]
    ∧ ("stop" : String) ≠ "length" := by
  constructor
  · rfl
  · decide

/-- Claim C1 as amended: for the non-streaming response the finish
reason is done_reason when that is stop or length, otherwise length
exactly when the worker sent eval_count equal to zero, otherwise stop;
the final frame of a streaming response always reports stop, whatever
the worker reported. -/
theorem c1_amended : ∀ (r : OResult) (model rid promptText : String)
    (echo : Bool) (lp : Option Nat) (nowSec : Nat) (iu : Bool)
    (created : Nat) (chunks : List StreamChunkIn),
    List.map CompletionsChoice.finish_reason
        (convertToOpenAICompletionsResponse r model rid promptText echo lp nowSec).choices
      = [if r.done_reason = some "stop" then "stop"
         else if r.done_reason = some "length" then "length"
         else if r.eval_count = some 0 then "length"
         else "stop"]
    ∧ ∃ fs, streamingEvents echo iu promptText rid model created chunks r
          = List.map SSE.frame fs
            ++ [SSE.frame (finalFrame iu rid model created r), SSE.doneSentinel]
        ∧ (finalFrame iu rid model created r).finish_reason = some "stop" := by
  intro r model rid promptText echo lp nowSec iu created chunks
  refine ⟨?_, streamFrames echo promptText rid model created chunks, rfl, rfl⟩
  simp [convertToOpenAICompletionsResponse, finishReasonOf]

/-- Claim C2, evaluation at the failing input: with echo set and prompt
Hi, a worker delta sequence beginning with an empty delta makes the
onChunk callback prepend the prompt to both of the first two frames,
because its first-chunk test compares the accumulated text with the
current delta.  The second conjunct shows the intended behaviour on the
scenario of the spec, where the first delta is nonempty. -/
theorem c2_code_bug_eval :
    List.map StreamFrame.text
        (streamFrames true "Hi" "r" "m" 0 [{ response := some "" }, { response := some "x" }])
      = ["Hi", "Hix"]
    ∧ List.map StreamFrame.text
        (streamFrames true "Hi" "r" "m" 0 [{ response := some "He" }, { response := some "llo" }])
      = ["HiHe", "llo"] := by
  constructor
  · decide
  · decide

/-- Worker liveness states of the registry.  Modelled from the spec:
liveness is one of joining, ready, draining, lost. -/
inductive WStatus where
  | joining
  | ready
  | draining
  | lost
deriving DecidableEq

/-- Model descriptor advertised by a worker; modified_at is the
modification timestamp in milliseconds since the epoch, absent when the
worker did not report one. -/
structure ModelDescriptor where
  name : String
  modified_at : Option Nat := none
deriving DecidableEq

/-- Registry view of one worker, reduced to the fields that the routes
under verification read. -/
structure WorkerInfo where
  id : String
  status : WStatus
  availableModels : List ModelDescriptor
deriving DecidableEq

/-- In-memory state of the worker registry. -/
structure RegistryState where
  workers : List WorkerInfo
deriving DecidableEq

/-- Modelled from the spec: the registry call used by the models route
is the list_workers snapshot, which returns every registered worker
whatever its liveness state. -/
def getAllWorkers (rs : RegistryState) : List WorkerInfo :=
  rs.workers

/-- Modelled from the spec: all_available_models is the union of the
model inventories over all workers whose liveness is ready. -/
def getAllAvailableModels (rs : RegistryState) : List String :=
  (rs.workers.filter (fun w => decide (w.status = WStatus.ready))).flatMap
    (fun w => w.availableModels.map ModelDescriptor.name)

/-- Entry of the /v1/models list. -/
structure ModelEntry where
  id : String
  object : String
  created : Nat
  owned_by : String
  root : String
  parent : Option String
deriving DecidableEq

/-- Entry built for a descriptor by the models route (openai.ts lines
352 to 363): created is the modification timestamp in unix seconds,
falling back to the current time when the descriptor has none. -/
def mkModelEntry (nowMs : Nat) (m : ModelDescriptor) : ModelEntry :=
  { id := m.name
    object := "model"
    created := (m.modified_at.getD nowMs) / 1000
    owned_by := "gridllm"
    root := m.name
    parent := none }

/-- The modelsMap accumulation of the models route (openai.ts lines 346
to 367): descriptors are visited in enumeration order and a descriptor
whose name is already present is skipped, so the first descriptor of a
name wins.  The accumulator keeps insertion order, like a JS Map. -/
def aggregateModels (nowMs : Nat) : List ModelEntry → List ModelDescriptor → List ModelEntry
  | acc, [] => acc
  | acc, d :: ds =>
    if acc.any (fun e => e.id == d.name) then aggregateModels nowMs acc ds
    else aggregateModels nowMs (acc ++ [mkModelEntry nowMs d]) ds

/-- All descriptors of a worker list in enumeration order (the nested
loops of the models route). -/
def descriptorsOf (workers : List WorkerInfo) : List ModelDescriptor :=
  workers.flatMap (fun w => w.availableModels)

/-- Lexicographic comparison of character lists, the model of the
localeCompare based comparator of the models route. -/
def lexLe : List Char → List Char → Bool
  | [], _ => true
  | _ :: _, [] => false
  | a :: as, b :: bs => if a = b then lexLe as bs else decide (a < b)

/-- Lexicographic comparison of strings by code points. -/
def strLe (a b : String) : Bool :=
  lexLe a.data b.data

/-- Ordered insertion, the auxiliary step of the comparator sort. -/
def insertLe {α : Type} (le : α → α → Bool) (x : α) : List α → List α
  | [] => [x]
  | y :: ys => if le x y then x :: y :: ys else y :: insertLe le x ys

/-- Comparator sort modelling Array.prototype.sort of the models route.
The sorted keys are pairwise distinct there, so any comparator sort
yields the same list. -/
def sortLe {α : Type} (le : α → α → Bool) : List α → List α
  | [] => []
  | x :: xs => insertLe le x (sortLe le xs)

/-- Sorting step of the models route (openai.ts lines 369 to 371). -/
def modelsHandler (nowMs : Nat) (workers : List WorkerInfo) : List ModelEntry :=
  sortLe (fun a b => strLe a.id b.id) (aggregateModels nowMs [] (descriptorsOf workers))

/-- The GET /v1/models handler: aggregate over the full worker
snapshot, then sort by entry id. -/
def modelsEndpoint (nowMs : Nat) (rs : RegistryState) : List ModelEntry :=
  modelsHandler nowMs (getAllWorkers rs)

theorem lexLe_total : ∀ a b : List Char, (lexLe a b || lexLe b a) = true := by
  intro a
  induction a with
  | nil => intro b; simp [lexLe]
  | cons x xs ih =>
    intro b
    cases b with
    | nil => simp [lexLe]
    | cons y ys =>
      by_cases hxy : x = y
      · subst hxy
        simp only [lexLe, if_pos rfl]
        exact ih ys
      · have hyx : y ≠ x := fun h => hxy h.symm
        simp only [lexLe, if_neg hxy, if_neg hyx]
        rcases lt_or_gt_of_ne hxy with h | h
        · simp [h]
        · simp [h]

theorem lexLe_trans : ∀ a b c : List Char,
    lexLe a b = true → lexLe b c = true → lexLe a c = true := by
  intro a
  induction a with
  | nil => intro b c _ _; simp [lexLe]
  | cons x xs ih =>
    intro b c hab hbc
    cases b with
    | nil => simp [lexLe] at hab
    | cons y ys =>
      cases c with
      | nil => simp [lexLe] at hbc
      | cons z zs =>
        by_cases hxy : x = y
        · subst hxy
          by_cases hyz : x = z
          · subst hyz
            simp only [lexLe, if_pos rfl] at hab hbc ⊢
            exact ih ys zs hab hbc
          · simp only [lexLe, if_pos rfl] at hab
            simp only [lexLe, if_neg hyz] at hbc ⊢
            exact hbc
        · by_cases hyz : y = z
          · subst hyz
            simp only [lexLe, if_neg hxy] at hab ⊢
            exact hab
          · simp only [lexLe, if_neg hxy] at hab
            simp only [lexLe, if_neg hyz] at hbc
            have hlt : x < z := lt_trans (of_decide_eq_true hab) (of_decide_eq_true hbc)
            have hxz : x ≠ z := ne_of_lt hlt
            simp [lexLe, if_neg hxz, hlt]

theorem strLe_total : ∀ a b : String, (strLe a b || strLe b a) = true := by
  intro a b; exact lexLe_total a.data b.data

theorem strLe_trans : ∀ a b c : String,
    strLe a b = true → strLe b c = true → strLe a c = true := by
  intro a b c; exact lexLe_trans a.data b.data c.data

theorem mem_insertLe {α : Type} (le : α → α → Bool) (x a : α) :
    ∀ l : List α, a ∈ insertLe le x l ↔ a = x ∨ a ∈ l := by
  intro l
  induction l with
  | nil => simp [insertLe]
  | cons y ys ih =>
    by_cases h : le x y = true
    · simp [insertLe, h, List.mem_cons]
    · simp only [insertLe, if_neg h, List.mem_cons, ih]
      tauto

theorem insertLe_perm {α : Type} (le : α → α → Bool) (x : α) :
    ∀ l : List α, (insertLe le x l).Perm (x :: l) := by
  intro l
  induction l with
  | nil => simp [insertLe]
  | cons y ys ih =>
    by_cases h : le x y = true
    · simp [insertLe, h]
    · simp only [insertLe, if_neg h]
      exact (ih.cons y).trans (List.Perm.swap x y ys)

theorem sortLe_perm {α : Type} (le : α → α → Bool) :
    ∀ l : List α, (sortLe le l).Perm l := by
  intro l
  induction l with
  | nil => simp [sortLe]
  | cons x xs ih =>
    exact (insertLe_perm le x (sortLe le xs)).trans (ih.cons x)

theorem pairwise_insertLe {α : Type} (le : α → α → Bool)
    (htrans : ∀ a b c, le a b = true → le b c = true → le a c = true)
    (htot : ∀ a b, (le a b || le b a) = true) (x : α) :
    ∀ l : List α, l.Pairwise (fun a b => le a b = true) →
      (insertLe le x l).Pairwise (fun a b => le a b = true) := by
  intro l
  induction l with
  | nil => intro _; simp [insertLe]
  | cons y ys ih =>
    intro hp
    rcases List.pairwise_cons.mp hp with ⟨hy, hys⟩
    by_cases h : le x y = true
    · simp only [insertLe, if_pos h]
      refine List.pairwise_cons.mpr ⟨?_, hp⟩
      intro b hb
      rcases List.mem_cons.mp hb with rfl | hb
      · exact h
      · exact htrans x y b h (hy b hb)
    · simp only [insertLe, if_neg h]
      refine List.pairwise_cons.mpr ⟨?_, ih hys⟩
      intro b hb
      rcases (mem_insertLe le x b ys).mp hb with rfl | hb
      · have := htot b y
        cases hxy : le b y with
        | true => exact absurd hxy h
        | false => simpa [hxy] using this
      · exact hy b hb

theorem pairwise_sortLe {α : Type} (le : α → α → Bool)
    (htrans : ∀ a b c, le a b = true → le b c = true → le a c = true)
    (htot : ∀ a b, (le a b || le b a) = true) :
    ∀ l : List α, (sortLe le l).Pairwise (fun a b => le a b = true) := by
  intro l
  induction l with
  | nil => simp [sortLe]
  | cons x xs ih => exact pairwise_insertLe le htrans htot x (sortLe le xs) ih

/-- Lookup of a models-list entry by id, the find side of the JS Map. -/
def lookupEntry (l : List ModelEntry) (n : String) : Option ModelEntry :=
  l.find? (fun e => e.id == n)

theorem any_id_iff (acc : List ModelEntry) (n : String) :
    (acc.any (fun e => e.id == n) = true) ↔ n ∈ acc.map ModelEntry.id := by
  simp only [List.any_eq_true, List.mem_map, beq_iff_eq]

theorem any_id_iff_lookup (acc : List ModelEntry) (n : String) :
    (acc.any (fun e => e.id == n) = true) ↔ (lookupEntry acc n).isSome := by
  rw [any_id_iff]
  simp only [lookupEntry, List.find?_isSome, List.mem_map, beq_iff_eq]

theorem mem_ids_agg (nowMs : Nat) :
    ∀ (ds : List ModelDescriptor) (acc : List ModelEntry) (n : String),
      n ∈ (aggregateModels nowMs acc ds).map ModelEntry.id ↔
        n ∈ acc.map ModelEntry.id ∨ ∃ d ∈ ds, d.name = n := by
  intro ds
  induction ds with
  | nil => intro acc n; simp [aggregateModels]
  | cons d ds ih =>
    intro acc n
    by_cases h : acc.any (fun e => e.id == d.name) = true
    · rw [aggregateModels, if_pos h, ih]
      have hd : d.name ∈ acc.map ModelEntry.id := (any_id_iff acc d.name).mp h
      constructor
      · rintro (hn | ⟨d2, hd2, rfl⟩)
        · exact Or.inl hn
        · exact Or.inr ⟨d2, List.mem_cons_of_mem d hd2, rfl⟩
      · rintro (hn | ⟨d2, hd2, rfl⟩)
        · exact Or.inl hn
        · rcases List.mem_cons.mp hd2 with rfl | hd2
          · exact Or.inl hd
          · exact Or.inr ⟨d2, hd2, rfl⟩
    · rw [aggregateModels, if_neg h, ih]
      simp only [List.map_append, List.map_cons, List.map_nil, List.mem_append,
        List.mem_singleton, mkModelEntry]
      constructor
      · rintro ((hn | hn) | hn)
        · exact Or.inl hn
        · exact Or.inr ⟨d, List.mem_cons_self d ds, hn.symm⟩
        · rcases hn with ⟨d2, hd2, rfl⟩
          exact Or.inr ⟨d2, List.mem_cons_of_mem d hd2, rfl⟩
      · rintro (hn | ⟨d2, hd2, rfl⟩)
        · exact Or.inl (Or.inl hn)
        · rcases List.mem_cons.mp hd2 with rfl | hd2
          · exact Or.inl (Or.inr rfl)
          · exact Or.inr ⟨d2, hd2, rfl⟩

theorem nodup_ids_agg (nowMs : Nat) :
    ∀ (ds : List ModelDescriptor) (acc : List ModelEntry),
      (acc.map ModelEntry.id).Nodup →
      ((aggregateModels nowMs acc ds).map ModelEntry.id).Nodup := by
  intro ds
  induction ds with
  | nil => intro acc h; simpa [aggregateModels] using h
  | cons d ds ih =>
    intro acc hacc
    by_cases h : acc.any (fun e => e.id == d.name) = true
    · rw [aggregateModels, if_pos h]; exact ih acc hacc
    · rw [aggregateModels, if_neg h]
      refine ih _ ?_
      have hnotin : d.name ∉ acc.map ModelEntry.id := fun hm =>
        h ((any_id_iff acc d.name).mpr hm)
      simp only [List.map_append, List.map_cons, List.map_nil, mkModelEntry]
      exact List.nodup_append.mpr ⟨hacc, List.nodup_singleton _,
        by intro a ha hb; rcases List.mem_singleton.mp hb with rfl; exact hnotin ha⟩

theorem shape_agg (nowMs : Nat) :
    ∀ (ds : List ModelDescriptor) (acc : List ModelEntry) (e : ModelEntry),
      e ∈ aggregateModels nowMs acc ds →
        e ∈ acc ∨ ∃ d ∈ ds, e = mkModelEntry nowMs d := by
  intro ds
  induction ds with
  | nil => intro acc e he; exact Or.inl he
  | cons d ds ih =>
    intro acc e he
    by_cases h : acc.any (fun e => e.id == d.name) = true
    · rw [aggregateModels, if_pos h] at he
      rcases ih acc e he with he | ⟨d2, hd2, rfl⟩
      · exact Or.inl he
      · exact Or.inr ⟨d2, List.mem_cons_of_mem d hd2, rfl⟩
    · rw [aggregateModels, if_neg h] at he
      rcases ih _ e he with he | ⟨d2, hd2, rfl⟩
      · rcases List.mem_append.mp he with he | he
        · exact Or.inl he
        · rcases List.mem_singleton.mp he with rfl
          exact Or.inr ⟨d, List.mem_cons_self d ds, rfl⟩
      · exact Or.inr ⟨d2, List.mem_cons_of_mem d hd2, rfl⟩

theorem lookup_agg (nowMs : Nat) :
    ∀ (ds : List ModelDescriptor) (acc : List ModelEntry) (n : String),
      lookupEntry (aggregateModels nowMs acc ds) n =
        (lookupEntry acc n).or
          ((ds.find? (fun d => d.name == n)).map (mkModelEntry nowMs)) := by
  intro ds
  induction ds with
  | nil =>
    intro acc n
    simp [aggregateModels, Option.or_none]
  | cons d ds ih =>
    intro acc n
    by_cases h : acc.any (fun e => e.id == d.name) = true
    · rw [aggregateModels, if_pos h, ih]
      by_cases hd : (d.name == n) = true
      · have hn : n = d.name := (beq_iff_eq.mp hd).symm
        have hsome := (any_id_iff_lookup acc d.name).mp h
        obtain ⟨e, he⟩ := Option.isSome_iff_exists.mp hsome
        rw [hn, he]
        simp [List.find?_cons, Option.or]
      · simp [List.find?_cons, hd]
    · rw [aggregateModels, if_neg h, ih]
      have hsingle : lookupEntry [mkModelEntry nowMs d] n =
          if (d.name == n) = true then some (mkModelEntry nowMs d) else none := by
        by_cases hd : (d.name == n) = true
        · simp [lookupEntry, List.find?_cons, mkModelEntry, hd]
        · simp [lookupEntry, List.find?_cons, mkModelEntry, hd]
      have happ : lookupEntry (acc ++ [mkModelEntry nowMs d]) n =
          (lookupEntry acc n).or (lookupEntry [mkModelEntry nowMs d] n) := by
        simp [lookupEntry, List.find?_append]
      rw [happ, hsingle, Option.or_assoc]
      by_cases hd : (d.name == n) = true
      · simp [List.find?_cons, hd, Option.or]
      · simp [List.find?_cons, hd, Option.none_or]

theorem mem_lookup_self :
    ∀ (l : List ModelEntry) (e : ModelEntry),
      (l.map ModelEntry.id).Nodup → e ∈ l → lookupEntry l e.id = some e := by
  intro l
  induction l with
  | nil => intro e _ he; simp at he
  | cons a l ih =>
    intro e hnd he
    rcases List.mem_cons.mp he with rfl | he
    · simp [lookupEntry, List.find?_cons]
    · have hal : a.id ∉ l.map ModelEntry.id := by
        simp only [List.map_cons, List.nodup_cons] at hnd
        exact hnd.1
      have heid : e.id ∈ l.map ModelEntry.id := List.mem_map.mpr ⟨e, he, rfl⟩
      have hne : (a.id == e.id) = false := by
        refine beq_eq_false_iff_ne.mpr ?_
        intro hcontra
        exact hal (hcontra ▸ heid)
      have hnd2 : (l.map ModelEntry.id).Nodup := by
        simp only [List.map_cons, List.nodup_cons] at hnd
        exact hnd.2
      simp only [lookupEntry, List.find?_cons, hne]
      exact ih e hnd2 he

theorem agg_append (nowMs : Nat) :
    ∀ (ds1 ds2 : List ModelDescriptor) (acc : List ModelEntry),
      aggregateModels nowMs acc (ds1 ++ ds2) =
        aggregateModels nowMs (aggregateModels nowMs acc ds1) ds2 := by
  intro ds1
  induction ds1 with
  | nil => intro ds2 acc; rfl
  | cons d ds1 ih =>
    intro ds2 acc
    by_cases h : acc.any (fun e => e.id == d.name) = true
    · rw [List.cons_append, aggregateModels, if_pos h, aggregateModels, if_pos h, ih]
    · rw [List.cons_append, aggregateModels, if_neg h, aggregateModels, if_neg h, ih]

theorem agg_skip_all (nowMs : Nat) :
    ∀ (ds : List ModelDescriptor) (acc : List ModelEntry),
      (∀ d ∈ ds, d.name ∈ acc.map ModelEntry.id) →
      aggregateModels nowMs acc ds = acc := by
  intro ds
  induction ds with
  | nil => intro acc _; rfl
  | cons d ds ih =>
    intro acc hall
    have hd : d.name ∈ acc.map ModelEntry.id := hall d (List.mem_cons_self d ds)
    rw [aggregateModels, if_pos ((any_id_iff acc d.name).mpr hd)]
    exact ih acc (fun d2 hd2 => hall d2 (List.mem_cons_of_mem d hd2))

/-- Registry with a single worker that is not ready but advertises a
model. -/
def rs0 : RegistryState :=
  ⟨[⟨"w1", WStatus.draining, [⟨"m1", some 5000⟩]⟩]⟩

/-- Claim C3, counterexample: the registry rs0 has no ready worker, so
the union of inventories over ready workers is empty, yet /v1/models
still lists m1, because the route aggregates over the full worker
snapshot without filtering by liveness. -/
theorem c3_counterexample :
    getAllAvailableModels rs0 = []
    ∧ List.map ModelEntry.id (modelsEndpoint 0 rs0) = ["m1"] := by
  exact ⟨rfl, rfl⟩

/-- Claim C3 as amended: /v1/models returns one entry per distinct
model name over the inventories of ALL registered workers, whatever
their liveness state, sorted by id under the lexicographic comparator,
each entry carrying owned_by gridllm and created taken from the
modification timestamp (in unix seconds) of a descriptor of that name,
with the current time as fallback. -/
theorem c3_amended : ∀ (nowMs : Nat) (rs : RegistryState),
    (modelsEndpoint nowMs rs).Pairwise (fun a b => strLe a.id b.id = true)
    ∧ ((modelsEndpoint nowMs rs).map ModelEntry.id).Nodup
    ∧ (∀ n : String, n ∈ (modelsEndpoint nowMs rs).map ModelEntry.id ↔
        ∃ w ∈ rs.workers, ∃ m ∈ w.availableModels, m.name = n)
    ∧ (∀ e ∈ modelsEndpoint nowMs rs,
        e.owned_by = "gridllm" ∧ e.object = "model" ∧ e.root = e.id ∧ e.parent = none
        ∧ ∃ w ∈ rs.workers, ∃ m ∈ w.availableModels,
            m.name = e.id ∧ e.created = (m.modified_at.getD nowMs) / 1000) := by
  intro nowMs rs
  have hperm : (modelsEndpoint nowMs rs).Perm
      (aggregateModels nowMs [] (descriptorsOf rs.workers)) :=
    sortLe_perm _ _
  have hnodagg : ((aggregateModels nowMs [] (descriptorsOf rs.workers)).map
      ModelEntry.id).Nodup := nodup_ids_agg nowMs _ [] (by simp)
  refine ⟨?_, ?_, ?_, ?_⟩
  · exact pairwise_sortLe _
      (fun a b c hab hbc => strLe_trans a.id b.id c.id hab hbc)
      (fun a b => strLe_total a.id b.id) _
  · exact ((hperm.map ModelEntry.id).symm.nodup) hnodagg
  · intro n
    rw [(hperm.map ModelEntry.id).mem_iff, mem_ids_agg]
    simp only [List.map_nil, List.not_mem_nil, false_or, descriptorsOf,
      List.mem_flatMap]
    constructor
    · rintro ⟨d, ⟨w, hw, hd⟩, rfl⟩
      exact ⟨w, hw, d, hd, rfl⟩
    · rintro ⟨w, hw, m, hm, rfl⟩
      exact ⟨m, ⟨w, hw, hm⟩, rfl⟩
  · intro e he
    have he2 : e ∈ aggregateModels nowMs [] (descriptorsOf rs.workers) :=
      hperm.mem_iff.mp he
    rcases shape_agg nowMs _ [] e he2 with h0 | ⟨d, hd, rfl⟩
    · simp at h0
    · rcases List.mem_flatMap.mp hd with ⟨w, hw, hdw⟩
      exact ⟨rfl, rfl, rfl, rfl, w, hw, d, hdw, rfl, rfl⟩

/-- Ready member workers used by the C3 witness. -/
def rsW : RegistryState :=
  ⟨[⟨"w1", WStatus.ready, [⟨"b", some 3000⟩]⟩,
    ⟨"w2", WStatus.lost, [⟨"a", none⟩]⟩]⟩

/-- Entry that /v1/models produces for model a of rsW at time 9000. -/
def entA : ModelEntry := ⟨"a", "model", 9, "gridllm", "a", none⟩

/-- Claim C3 witness: the amended theorem instantiated on the concrete
registry rsW at time 9000 ms, with the membership hypothesis of the
per-entry part discharged on the concrete entry entA. -/
theorem c3_amended_witness :
    ("a" ∈ List.map ModelEntry.id (modelsEndpoint 9000 rsW) ↔
       ∃ w ∈ rsW.workers, ∃ m ∈ w.availableModels, m.name = "a")
    ∧ (entA.owned_by = "gridllm" ∧ entA.object = "model" ∧ entA.root = entA.id
       ∧ entA.parent = none ∧ ∃ w ∈ rsW.workers, ∃ m ∈ w.availableModels,
           m.name = entA.id ∧ entA.created = (m.modified_at.getD 9000) / 1000) :=
  ⟨(c3_amended 9000 rsW).2.2.1 "a", (c3_amended 9000 rsW).2.2.2 entA (by decide)⟩

/-- Two ready workers advertising the same model name with different
modification timestamps, in both enumeration orders. -/
def dupWorkers : List WorkerInfo :=
  [⟨"w1", WStatus.ready, [⟨"m1", some 2000⟩]⟩,
   ⟨"w2", WStatus.ready, [⟨"m1", some 5000⟩]⟩]

/-- The same two workers enumerated in the opposite order. -/
def dupWorkersSwapped : List WorkerInfo :=
  [⟨"w2", WStatus.ready, [⟨"m1", some 5000⟩]⟩,
   ⟨"w1", WStatus.ready, [⟨"m1", some 2000⟩]⟩]

/-- Claim C4, counterexample: with two workers advertising m1 (modified
at 2000 ms and 5000 ms), the reported created field is 2, the timestamp
of the first descriptor encountered, not 5, the newest one; enumerating
the workers in the opposite order changes the output to 5, so the
result is not independent of enumeration order either. -/
theorem c4_counterexample :
    List.map ModelEntry.created (modelsHandler 0 dupWorkers) = [2]
    ∧ List.map ModelEntry.created (modelsHandler 0 dupWorkersSwapped) = [5]
    ∧ (2 : Nat) ≠ 5 := by
  exact ⟨rfl, rfl, by decide⟩

/-- Claim C4 as amended: the entry reported for a model name is built
from the FIRST descriptor with that name in worker enumeration order
(so its created field comes from that descriptor, not from the newest
one), and the /v1/models output is unchanged when the whole worker list
is duplicated, that is, under duplicate registration of identical
inventories. -/
theorem c4_amended : ∀ (nowMs : Nat) (ws : List WorkerInfo),
    (∀ e ∈ modelsHandler nowMs ws,
       ∃ d, (descriptorsOf ws).find? (fun m => m.name == e.id) = some d
         ∧ e = mkModelEntry nowMs d)
    ∧ modelsHandler nowMs (ws ++ ws) = modelsHandler nowMs ws := by
  intro nowMs ws
  constructor
  · intro e he
    have hperm : (modelsHandler nowMs ws).Perm
        (aggregateModels nowMs [] (descriptorsOf ws)) := sortLe_perm _ _
    have he2 : e ∈ aggregateModels nowMs [] (descriptorsOf ws) :=
      hperm.mem_iff.mp he
    have hnod : ((aggregateModels nowMs [] (descriptorsOf ws)).map
        ModelEntry.id).Nodup := nodup_ids_agg nowMs _ [] (by simp)
    have hself := mem_lookup_self _ e hnod he2
    rw [lookup_agg nowMs (descriptorsOf ws) [] e.id] at hself
    simp only [lookupEntry, List.find?_nil, Option.none_or] at hself
    rcases Option.map_eq_some'.mp hself with ⟨d, hd, hmk⟩
    exact ⟨d, hd, hmk.symm⟩
  · unfold modelsHandler
    rw [descriptorsOf, List.flatMap_append]
    rw [agg_append nowMs _ _ []]
    rw [agg_skip_all nowMs _ _ ?_]
    · rfl
    · intro d hd
      rw [mem_ids_agg]
      exact Or.inr ⟨d, hd, rfl⟩

/-- Entry that /v1/models produces for dupWorkers at time 0. -/
def entM : ModelEntry := ⟨"m1", "model", 2, "gridllm", "m1", none⟩

/-- Claim C4 witness: the amended theorem instantiated on dupWorkers,
with the membership hypothesis discharged on the concrete entry entM. -/
theorem c4_amended_witness :
    (∃ d, (descriptorsOf dupWorkers).find? (fun m => m.name == entM.id) = some d
        ∧ entM = mkModelEntry 0 d)
    ∧ modelsHandler 0 (dupWorkers ++ dupWorkers) = modelsHandler 0 dupWorkers :=
  ⟨(c4_amended 0 dupWorkers).1 entM (by decide), (c4_amended 0 dupWorkers).2⟩

/-- Value of the stop parameter after Joi validation: a single string
or an array of strings. -/
inductive StopParam where
  | str (s : String)
  | arr (l : List String)
deriving DecidableEq

/-- Value of the prompt parameter after Joi validation: a string, an
array of strings, a token array, or an array of token arrays. -/
inductive PromptParam where
  | str (s : String)
  | strs (l : List String)
  | toks (l : List Int)
  | tokss (l : List (List Int))
deriving DecidableEq

/-- The stream_options object of a completions request. -/
structure StreamOpts where
  include_usage : Bool := false
deriving DecidableEq

/-- A completions request after Joi validation, with the schema
defaults (openai.ts lines 17 to 50) applied.  Floating point JSON
numbers are modelled as rationals. -/
structure ValidatedCompletions where
  model : String
  prompt : PromptParam
  best_of : Nat := 1
  echo : Bool := false
  frequency_penalty : Rat := 0
  logprobs : Option Nat := none
  max_tokens : Nat := 16
  n : Nat := 1
  presence_penalty : Rat := 0
  seed : Option Int := none
  stop : Option StopParam := none
  stream : Bool := false
  stream_options : Option StreamOpts := none
  suffix : Option String := none
  temperature : Rat := 1
  top_p : Rat := 1
  user : Option String := none
deriving DecidableEq

/-- Options object forwarded to the worker; a field is none exactly
when the corresponding assignment of openai.ts lines 156 to 181 did not
run. -/
structure OllamaOptions where
  temperature : Option Rat := none
  top_p : Option Rat := none
  num_predict : Option Nat := none
  seed : Option Int := none
  stop : Option (List String) := none
  frequency_penalty : Option Rat := none
  presence_penalty : Option Rat := none
deriving DecidableEq

/-- Array coercion applied to a non-null stop value (openai.ts lines
171 to 175). -/
def coerceStop : StopParam → List String
  | .str s => [s]
  | .arr l => l

/-- Embedding of the ollamaOptions construction (openai.ts lines 156 to
181): temperature and top_p are forwarded unless equal to the default
1, max_tokens becomes num_predict unless equal to the default 16, seed
and stop are forwarded when non-null (stop coerced to an array), and
the penalties are forwarded when nonzero. -/
def buildOllamaOptions (v : ValidatedCompletions) : OllamaOptions :=
  { temperature := if v.temperature ≠ 1 then some v.temperature else none
    top_p := if v.top_p ≠ 1 then some v.top_p else none
    num_predict := if v.max_tokens ≠ 16 then some v.max_tokens else none
    seed := v.seed
    stop := v.stop.map coerceStop
    frequency_penalty :=
      if v.frequency_penalty ≠ 0 then some v.frequency_penalty else none
    presence_penalty :=
      if v.presence_penalty ≠ 0 then some v.presence_penalty else none }

/-- Stringification of a token array, the JSON.stringify fallback of
convertPromptToString. -/
def jsonArrayInt (l : List Int) : String :=
  "[" ++ String.intercalate "," (l.map toString) ++ "]"

/-- Embedding of convertPromptToString (openai.ts lines 63 to 81):
strings pass through, an empty array gives the empty string, string
arrays are joined by a newline, and token arrays are stringified. -/
def convertPromptToString : PromptParam → String
  | .str s => s
  | .strs l => if l = [] then "" else String.intercalate "\n" l
  | .toks l => if l = [] then "" else jsonArrayInt l
  | .tokss l =>
    if l = [] then ""
    else "[" ++ String.intercalate "," (l.map jsonArrayInt) ++ "]"

/-- Claim C6: for every completions request, each forwarded option is
present exactly under the condition of the translation table, stop is
coerced to an array, and no other request field influences the options
object. -/
theorem c6_options_forwarding : ∀ (v : ValidatedCompletions),
    (∀ t : Rat, (buildOllamaOptions v).temperature = some t ↔
      v.temperature ≠ 1 ∧ t = v.temperature)
    ∧ (∀ t : Rat, (buildOllamaOptions v).top_p = some t ↔
      v.top_p ≠ 1 ∧ t = v.top_p)
    ∧ (∀ m : Nat, (buildOllamaOptions v).num_predict = some m ↔
      v.max_tokens ≠ 16 ∧ m = v.max_tokens)
    ∧ (buildOllamaOptions v).seed = v.seed
    ∧ (∀ a : List String, (buildOllamaOptions v).stop = some a ↔
      ∃ sp, v.stop = some sp ∧ a = coerceStop sp)
    ∧ (∀ q : Rat, (buildOllamaOptions v).frequency_penalty = some q ↔
      v.frequency_penalty ≠ 0 ∧ q = v.frequency_penalty)
    ∧ (∀ q : Rat, (buildOllamaOptions v).presence_penalty = some q ↔
      v.presence_penalty ≠ 0 ∧ q = v.presence_penalty)
    ∧ (∀ (b : Bool) (lp : Option Nat) (k bo : Nat) (u : Option String)
        (st : Bool) (so : Option StreamOpts) (sf : Option String)
        (pr : PromptParam) (md : String),
        buildOllamaOptions { v with echo := b, logprobs := lp, n := k, best_of := bo, user := u, stream := st, stream_options := so, suffix := sf, prompt := pr, model := md } = buildOllamaOptions v) := by
  intro v
  refine ⟨?_, ?_, ?_, rfl, ?_, ?_, ?_, ?_⟩
  · intro t
    by_cases h : v.temperature = 1 <;>
      simp [buildOllamaOptions, h, eq_comm]
  · intro t
    by_cases h : v.top_p = 1 <;>
      simp [buildOllamaOptions, h, eq_comm]
  · intro m
    by_cases h : v.max_tokens = 16 <;>
      simp [buildOllamaOptions, h, eq_comm]
  · intro a
    simp only [buildOllamaOptions, Option.map_eq_some']
    constructor
    · rintro ⟨sp, hsp, rfl⟩; exact ⟨sp, hsp, rfl⟩
    · rintro ⟨sp, hsp, rfl⟩; exact ⟨sp, hsp, rfl⟩
  · intro q
    by_cases h : v.frequency_penalty = 0 <;>
      simp [buildOllamaOptions, h, eq_comm]
  · intro q
    by_cases h : v.presence_penalty = 0 <;>
      simp [buildOllamaOptions, h, eq_comm]
  · intro b lp k bo u st so sf pr md
    rfl

/-- Client-facing error produced by createError: an HTTP status code
and a message. -/
structure ApiErr where
  status : Nat
  message : String
deriving DecidableEq

/-- Embedding of validateModelExists (openai.ts lines 52 to 61): throws
a 404 error when the requested model is not in the availability union
of the registry. -/
def validateModelExists (rs : RegistryState) (model : String) : Except ApiErr Unit :=
  if model ∈ getAllAvailableModels rs then Except.ok ()
  else Except.error ⟨404, "Model " ++ model ++ " is not available on any worker in the network"⟩

/-- Inference request constructed by the completions route (openai.ts
lines 183 to 205), reduced to the scheduler-relevant fields. -/
structure InferenceRequestE where
  id : String
  model : String
  prompt : String
  stream : Bool
  options : OllamaOptions
  priority : String
  timeout : Nat
deriving DecidableEq

/-- Request object built after validation; newId stands for the
generated uuid. -/
def mkInferenceRequest (newId : String) (v : ValidatedCompletions) : InferenceRequestE :=
  { id := newId
    model := v.model
    prompt := convertPromptToString v.prompt
    stream := v.stream
    options := buildOllamaOptions v
    priority := "medium"
    timeout := 300000 }

/-- The completions handler up to job submission, over a validated
request: model availability is checked first and a failure returns
without building a request; otherwise the built request is enqueued.
The enqueue itself is modelled from the spec (submit appends the job to
the scheduler queue); everything before it is the translation of
openai.ts lines 136 to 225. -/
def completionsDispatch (rs : RegistryState) (queue : List InferenceRequestE)
    (newId : String) (v : ValidatedCompletions) :
    Except ApiErr Unit × List InferenceRequestE :=
  match validateModelExists rs v.model with
  | Except.error e => (Except.error e, queue)
  | Except.ok _ => (Except.ok (), queue ++ [mkInferenceRequest newId v])

/-- Claim C7: when no worker in the fleet advertises the requested
model, the completions request fails with a 404 error and the queue is
left unchanged, so no job is constructed, submitted or enqueued. -/
theorem c7_model_unavailable_rejects (rs : RegistryState)
    (queue : List InferenceRequestE) (newId : String) (v : ValidatedCompletions)
    (h : ∀ w ∈ rs.workers, ∀ m ∈ w.availableModels, m.name ≠ v.model) :
    (∃ e, (completionsDispatch rs queue newId v).1 = Except.error e
        ∧ e.status = 404)
    ∧ (completionsDispatch rs queue newId v).2 = queue := by
  have hnot : v.model ∉ getAllAvailableModels rs := by
    intro hmem
    rcases List.mem_flatMap.mp hmem with ⟨w, hw, hname⟩
    rcases List.mem_map.mp hname with ⟨m, hm, hmn⟩
    have hw2 : w ∈ rs.workers := (List.mem_filter.mp hw).1
    exact h w hw2 m hm hmn
  have hval : validateModelExists rs v.model =
      Except.error ⟨404, "Model " ++ v.model ++ " is not available on any worker in the network"⟩ := by
    rw [validateModelExists, if_neg hnot]
  constructor
  · refine ⟨⟨404, "Model " ++ v.model ++ " is not available on any worker in the network"⟩, ?_, rfl⟩
    rw [completionsDispatch, hval]
  · rw [completionsDispatch, hval]

/-- Registry used by the C7 witness: one ready worker advertising only
model m1. -/
def rsV : RegistryState := ⟨[⟨"w1", WStatus.ready, [⟨"m1", none⟩]⟩]⟩

/-- Request used by the C7 witness, asking for a model nobody has. -/
def reqV : ValidatedCompletions := { model := "unknown", prompt := PromptParam.str "Hi" }

/-- Claim C7 witness: the rejection theorem applied to the concrete
registry rsV and request reqV, the unavailability hypothesis being
discharged by computation. -/
theorem c7_witness :
    (∃ e, (completionsDispatch rsV [] "id1" reqV).1 = Except.error e
        ∧ e.status = 404)
    ∧ (completionsDispatch rsV [] "id1" reqV).2 = [] :=
  c7_model_unavailable_rejects rsV [] "id1" reqV (by decide)

/-- A worker stream record as produced by JSON.parse of one line:
response text (generate), message content (chat) and the done flag,
each possibly absent. -/
structure WRecord where
  response : Option (List Char) := none
  content : Option (List Char) := none
  done : Option Bool := none
deriving DecidableEq

/-- Chunk yielded by the streaming generators of OllamaService: the
request id, the response delta (empty when absent) and the done flag
(false when absent). -/
structure SRec where
  id : String
  response : List Char
  done : Bool
deriving DecidableEq

/-- Yield built by generateStreamResponse (OllamaService.ts lines 241
to 245) from a parsed record. -/
def toStreamChunk (rid : String) (r : WRecord) : SRec :=
  ⟨rid, r.response.getD [], r.done.getD false⟩

/-- Yield built by generateChatStreamResponse (OllamaService.ts lines
463 to 468) from a parsed record: the delta comes from the message
content. -/
def toChatStreamChunk (rid : String) (r : WRecord) : SRec :=
  ⟨rid, r.content.getD [], r.done.getD false⟩

/-- Whitespace test matching the truthiness check on line.trim(): true
exactly when the trimmed line is empty. -/
def isBlankLine (l : List Char) : Bool :=
  l.all (fun c => c == ' ' || c == '\t' || c == '\r' || c == '\n')

/-- The buffer split of the stream loop: buffer.split on the newline
followed by popping the last element.  Returns the complete lines and
the remaining buffer. -/
def splitBuf : List Char → List (List Char) × List Char
  | [] => ([], [])
  | c :: rest =>
    if c = '\n' then ([] :: (splitBuf rest).1, (splitBuf rest).2)
    else
      match (splitBuf rest).1, (splitBuf rest).2 with
      | [], b => ([], c :: b)
      | l :: ls, b => ((c :: l) :: ls, b)

/-- Loop state of generateStreamResponse apart from the buffer: the
yields so far and whether the generator has returned (the early return
after a done record). -/
structure GenCore where
  yields : List SRec
  finished : Bool
deriving DecidableEq

/-- Processing of one complete line by generateStreamResponse
(OllamaService.ts lines 237 to 261): after the generator returned
nothing happens, a blank line is skipped, a line that fails to parse is
logged and skipped, and a parsed record is yielded, the generator
returning when its done flag is set.  The JSON.parse call is the
parameter p. -/
def procLine (p : List Char → Option WRecord) (rid : String)
    (st : GenCore) (l : List Char) : GenCore :=
  if st.finished then st
  else if isBlankLine l then st
  else match p l with
    | none => st
    | some d => { yields := st.yields ++ [toStreamChunk rid d],
                  finished := d.done.getD false }

/-- Run of the line loop from the initial state. -/
def processLines (p : List Char → Option WRecord) (rid : String)
    (ls : List (List Char)) : GenCore :=
  ls.foldl (procLine p rid) ⟨[], false⟩

/-- Processing of one transport chunk (OllamaService.ts lines 232 to
236): the chunk text is appended to the buffer, the complete lines are
handed to the line loop, and the remainder becomes the new buffer. -/
def procChunk (p : List Char → Option WRecord) (rid : String)
    (s : GenCore × List Char) (c : List Char) : GenCore × List Char :=
  ((splitBuf (s.2 ++ c)).1.foldl (procLine p rid) s.1, (splitBuf (s.2 ++ c)).2)

/-- Whole run of generateStreamResponse over the list of transport
chunks of a delivered stream, starting from an empty buffer. -/
def generateStreamRun (p : List Char → Option WRecord) (rid : String)
    (chunks : List (List Char)) : GenCore × List Char :=
  chunks.foldl (procChunk p rid) (⟨[], false⟩, [])

/-- Outcome of generateStreamResponse for a fully delivered stream.
The only throw sites of the function are transport failures rethrown by
the surrounding catch; the parse loop itself raises nothing, so a
delivered-then-closed stream always completes normally with its yields,
whatever remains in the buffer. -/
def generateStreamResult (p : List Char → Option WRecord) (rid : String)
    (chunks : List (List Char)) : Except String (List SRec) :=
  Except.ok (generateStreamRun p rid chunks).1.yields

/-- Parse outcome of one line: none when the line is blank or fails to
parse, some record otherwise. -/
def lineOut (p : List Char → Option WRecord) (l : List Char) : Option WRecord :=
  if isBlankLine l then none else p l

/-- The inner line loop of generateStreamResponse expressed on parse
outcomes: skipped lines produce nothing, a parsed record is yielded,
and the sequence stops right after the first record whose done flag is
set.  Tied to the foldl translation by processLines_eq_recordYields. -/
def recordYields (rid : String) : List (Option WRecord) → List SRec
  | [] => []
  | none :: rest => recordYields rid rest
  | some d :: rest =>
    toStreamChunk rid d :: (if d.done.getD false then [] else recordYields rid rest)

/-- Yields of the generator when the worker emits exactly the given
records, one parseable line each. -/
def emitYields (rid : String) (recs : List WRecord) : List SRec :=
  recordYields rid (recs.map some)

/-- Index of the first record with the done flag set, or the length of
the list when there is none. -/
def firstDoneIdx : List WRecord → Nat
  | [] => 0
  | r :: rs => if r.done.getD false then 0 else firstDoneIdx rs + 1

/-- Event delivered to the client handler of a streaming job. -/
inductive ClientEvent where
  | chunk (c : SRec)
  | complete
  | error (msg : String)
deriving DecidableEq

/-- Modelled from the spec: the stream broker forwards every yielded
chunk to on_chunk in arrival order until the worker signals done, and
then invokes on_complete exactly once (on_error instead when the
transport fails, which does not happen for a delivered stream). -/
def brokerEvents (yields : List SRec) : List ClientEvent :=
  (yields.takeWhile (fun r => !r.done)).map ClientEvent.chunk ++ [ClientEvent.complete]

/-- Line processing of generateChatStreamResponse (OllamaService.ts
lines 459 to 476): like the generate variant but without the early
return after a done record. -/
def chatProcLine (p : List Char → Option WRecord) (rid : String)
    (ys : List SRec) (l : List Char) : List SRec :=
  if isBlankLine l then ys
  else match p l with
    | none => ys
    | some d => ys ++ [toChatStreamChunk rid d]

/-- Chunk processing of the chat stream loop (OllamaService.ts lines
454 to 457). -/
def chatProcChunk (p : List Char → Option WRecord) (rid : String)
    (s : List SRec × List Char) (c : List Char) : List SRec × List Char :=
  ((splitBuf (s.2 ++ c)).1.foldl (chatProcLine p rid) s.1, (splitBuf (s.2 ++ c)).2)

/-- Trailing buffer handling of generateChatStreamResponse
(OllamaService.ts lines 479 to 495): a nonblank remaining buffer is
parsed as a final record and skipped when it fails to parse. -/
def chatFinal (p : List Char → Option WRecord) (rid : String)
    (s : List SRec × List Char) : List SRec :=
  if isBlankLine s.2 then s.1
  else match p s.2 with
    | none => s.1
    | some d => s.1 ++ [toChatStreamChunk rid d]

/-- Whole run of generateChatStreamResponse over the transport chunks
of a delivered stream. -/
def generateChatStreamRun (p : List Char → Option WRecord) (rid : String)
    (chunks : List (List Char)) : List SRec :=
  chatFinal p rid (chunks.foldl (chatProcChunk p rid) ([], []))

theorem splitBuf_append : ∀ a b : List Char,
    splitBuf (a ++ b) =
      ((splitBuf a).1 ++ (splitBuf ((splitBuf a).2 ++ b)).1,
       (splitBuf ((splitBuf a).2 ++ b)).2) := by
  intro a
  induction a with
  | nil =>
    intro b
    simp [splitBuf]
  | cons c a ih =>
    intro b
    by_cases hc : c = '\n'
    · subst hc
      have h1 : ∀ x : List Char, splitBuf ('\n' :: x) =
          ([] :: (splitBuf x).1, (splitBuf x).2) := by
        intro x; simp [splitBuf]
      rw [List.cons_append, h1 (a ++ b), h1 a, ih b]
      simp
    · have hsp : ∀ x : List Char, splitBuf (c :: x) =
          (match (splitBuf x).1, (splitBuf x).2 with
           | [], b2 => ([], c :: b2)
           | l :: ls, b2 => ((c :: l) :: ls, b2)) := by
        intro x; simp [splitBuf, hc]
      rw [List.cons_append, hsp (a ++ b), hsp a, ih b]
      cases h1 : (splitBuf a).1 with
      | nil =>
        simp only [h1, List.nil_append]
        exact (Prod.mk.eta.trans (hsp ((splitBuf a).2 ++ b))).symm
      | cons l ls =>
        simp only [h1, List.cons_append]

theorem splitBuf_no_newline : ∀ s : List Char, '\n' ∉ s → splitBuf s = ([], s) := by
  intro s
  induction s with
  | nil => intro _; rfl
  | cons c s ih =>
    intro h
    have hc : c ≠ '\n' := fun hc => h (hc ▸ List.mem_cons_self c s)
    have hs : '\n' ∉ s := fun hs => h (List.mem_cons_of_mem c hs)
    rw [splitBuf, if_neg hc, ih hs]

theorem splitBuf_snd_no_newline : ∀ s : List Char, '\n' ∉ (splitBuf s).2 := by
  intro s
  induction s with
  | nil => simp [splitBuf]
  | cons c s ih =>
    by_cases hc : c = '\n'
    · subst hc; simpa [splitBuf] using ih
    · rw [splitBuf, if_neg hc]
      cases h1 : (splitBuf s).1 with
      | nil =>
        simp only [h1]
        intro hmem
        rcases List.mem_cons.mp hmem with heq | hmem2
        · exact hc heq.symm
        · exact ih hmem2
      | cons l ls =>
        simpa [h1] using ih

theorem procLine_skip (p : List Char → Option WRecord) (rid : String)
    (st : GenCore) (l : List Char) (h : lineOut p l = none) :
    procLine p rid st l = st := by
  by_cases hf : st.finished = true
  · rw [procLine, if_pos hf]
  · rw [lineOut] at h
    by_cases hb : isBlankLine l = true
    · rw [procLine, if_neg hf, if_pos hb]
    · rw [if_neg hb] at h
      rw [procLine, if_neg hf, if_neg hb, h]

theorem foldl_finished (p : List Char → Option WRecord) (rid : String) :
    ∀ (ls : List (List Char)) (ys : List SRec),
      ls.foldl (procLine p rid) ⟨ys, true⟩ = ⟨ys, true⟩ := by
  intro ls
  induction ls with
  | nil => intro ys; rfl
  | cons l ls ih =>
    intro ys
    have hstep : procLine p rid ⟨ys, true⟩ l = ⟨ys, true⟩ := by
      rw [procLine]; rfl
    rw [List.foldl_cons, hstep, ih]

theorem foldl_procLine_eq (p : List Char → Option WRecord) (rid : String) :
    ∀ (ls : List (List Char)) (ys : List SRec),
      (ls.foldl (procLine p rid) ⟨ys, false⟩).yields
        = ys ++ recordYields rid (ls.map (lineOut p)) := by
  intro ls
  induction ls with
  | nil => intro ys; simp [recordYields]
  | cons l ls ih =>
    intro ys
    cases hl : lineOut p l with
    | none =>
      rw [List.foldl_cons, procLine_skip p rid _ l hl, ih ys,
        List.map_cons, hl, recordYields]
    | some d =>
      have hb : isBlankLine l = false := by
        by_contra hcontra
        have hb2 : isBlankLine l = true := by
          cases h2 : isBlankLine l with
          | true => rfl
          | false => exact absurd h2 hcontra
        rw [lineOut, if_pos hb2] at hl
        exact Option.noConfusion hl
      have hp : p l = some d := by
        rw [lineOut, if_neg (by rw [hb]; exact Bool.false_ne_true)] at hl
        exact hl
      have hstep : procLine p rid ⟨ys, false⟩ l =
          ⟨ys ++ [toStreamChunk rid d], d.done.getD false⟩ := by
        rw [procLine, if_neg (by exact Bool.false_ne_true),
          if_neg (by rw [hb]; exact Bool.false_ne_true), hp]
      rw [List.foldl_cons, hstep, List.map_cons, hl, recordYields]
      cases hd : d.done.getD false with
      | false =>
        rw [ih (ys ++ [toStreamChunk rid d])]
        simp
      | true =>
        rw [foldl_finished p rid ls (ys ++ [toStreamChunk rid d])]
        simp

theorem emitYields_take (rid : String) : ∀ recs : List WRecord,
    emitYields rid recs = (recs.map (toStreamChunk rid)).take (firstDoneIdx recs + 1) := by
  intro recs
  induction recs with
  | nil => rfl
  | cons r rs ih =>
    rw [emitYields, List.map_cons, recordYields, List.map_cons, firstDoneIdx]
    cases hd : r.done.getD false with
    | true => simp [hd]
    | false =>
      rw [if_neg (by decide), if_neg (by decide)]
      rw [List.take_succ_cons]
      rw [show recordYields rid (rs.map some) = emitYields rid rs from rfl, ih]

theorem brokerEvents_take (rid : String) : ∀ recs : List WRecord,
    brokerEvents (emitYields rid recs)
      = ((recs.map (toStreamChunk rid)).take (firstDoneIdx recs)).map ClientEvent.chunk
        ++ [ClientEvent.complete] := by
  intro recs
  induction recs with
  | nil => rfl
  | cons r rs ih =>
    rw [emitYields, List.map_cons, recordYields, List.map_cons, firstDoneIdx]
    cases hd : r.done.getD false with
    | true =>
      rw [if_pos (by decide)]
      have hdone : (toStreamChunk rid r).done = true := by
        rw [toStreamChunk]; exact hd
      simp [brokerEvents, List.takeWhile_cons, hdone]
    | false =>
      rw [if_neg (by decide), if_neg (by decide)]
      have hdone : (toStreamChunk rid r).done = false := by
        rw [toStreamChunk]; exact hd
      rw [List.take_succ_cons, List.map_cons]
      rw [show recordYields rid (rs.map some) = emitYields rid rs from rfl]
      simp only [brokerEvents, List.takeWhile_cons, hdone, Bool.not_false, if_pos,
        List.map_cons, List.cons_append]
      rw [brokerEvents] at ih
      rw [ih]

/-- Claim C5: the line loop yields are exactly recordYields of the
parse outcomes; when the worker emits a record sequence, the yields of
the generator are the prefix of the emitted sequence that ends with the
first done record, and the broker delivers exactly the chunks strictly
before the first done record, in order, followed by exactly one
terminal event.  In particular nothing emitted after the first done
record is yielded or forwarded. -/
theorem c5_stream_order :
    (∀ (p : List Char → Option WRecord) (rid : String) (ls : List (List Char)),
       (processLines p rid ls).yields = recordYields rid (ls.map (lineOut p)))
    ∧ (∀ (rid : String) (recs : List WRecord),
       emitYields rid recs = (recs.map (toStreamChunk rid)).take (firstDoneIdx recs + 1))
    ∧ (∀ (rid : String) (recs : List WRecord),
       brokerEvents (emitYields rid recs)
         = ((recs.map (toStreamChunk rid)).take (firstDoneIdx recs)).map ClientEvent.chunk
           ++ [ClientEvent.complete]) :=
  ⟨fun p rid ls => by simpa using foldl_procLine_eq p rid ls [],
   emitYields_take, brokerEvents_take⟩

theorem procChunk_append (p : List Char → Option WRecord) (rid : String) :
    ∀ (st : GenCore × List Char) (a b : List Char),
      procChunk p rid (procChunk p rid st a) b = procChunk p rid st (a ++ b) := by
  intro st a b
  unfold procChunk
  rw [← List.append_assoc, splitBuf_append (st.2 ++ a) b]
  simp [List.foldl_append]

theorem foldl_procChunk_cons (p : List Char → Option WRecord) (rid : String) :
    ∀ (cs : List (List Char)) (a : List Char) (st : GenCore × List Char),
      (a :: cs).foldl (procChunk p rid) st = procChunk p rid st (a :: cs).flatten := by
  intro cs
  induction cs with
  | nil => intro a st; simp [List.flatten]
  | cons b cs ih =>
    intro a st
    rw [List.foldl_cons, ih b (procChunk p rid st a), procChunk_append]
    simp [List.flatten_cons]

theorem generateStreamRun_eq (p : List Char → Option WRecord) (rid : String) :
    ∀ cs : List (List Char),
      generateStreamRun p rid cs
        = (processLines p rid (splitBuf cs.flatten).1, (splitBuf cs.flatten).2) := by
  intro cs
  cases cs with
  | nil => rfl
  | cons a cs =>
    rw [generateStreamRun, foldl_procChunk_cons, procChunk]
    simp [processLines]

/-- Claim C8 as amended: the parser is newline-delimited with respect
to the concatenated byte stream: the run over any chunking equals the
line loop over the complete lines of the concatenation, with the
trailing partial line kept in the buffer; a stream with no delimiter
yields nothing; a complete line that fails to parse is skipped without
affecting the rest of the stream or raising anything; and a stream
closed mid-record raises no error: the generate loop silently discards
the trailing buffer, while the chat loop parses the trailing buffer as
a final record. -/
theorem c8_amended :
    (∀ (p : List Char → Option WRecord) (rid : String) (cs : List (List Char)),
       generateStreamRun p rid cs
         = (processLines p rid (splitBuf cs.flatten).1, (splitBuf cs.flatten).2))
    ∧ (∀ (p : List Char → Option WRecord) (rid : String) (s : List Char),
       '\n' ∉ s → (generateStreamRun p rid [s]).1.yields = [])
    ∧ (∀ (p : List Char → Option WRecord) (rid : String)
        (l1 : List (List Char)) (b : List Char) (l2 : List (List Char)),
       lineOut p b = none →
       processLines p rid (l1 ++ b :: l2) = processLines p rid (l1 ++ l2))
    ∧ (∀ (p : List Char → Option WRecord) (rid : String) (s : List Char) (r : WRecord),
       '\n' ∉ s → isBlankLine s = false → p s = some r →
       generateChatStreamRun p rid [s] = [toChatStreamChunk rid r]) := by
  refine ⟨generateStreamRun_eq, ?_, ?_, ?_⟩
  · intro p rid s hnl
    rw [generateStreamRun_eq]
    have hfl : List.flatten [s] = s := by simp
    rw [hfl, splitBuf_no_newline s hnl]
    rfl
  · intro p rid l1 b l2 hb
    unfold processLines
    rw [List.foldl_append, List.foldl_append, List.foldl_cons,
      procLine_skip p rid _ b hb]
  · intro p rid s r hnl hblank hp
    rw [generateChatStreamRun, List.foldl_cons, List.foldl_nil, chatProcChunk]
    simp only [List.nil_append]
    rw [splitBuf_no_newline s hnl]
    simp only [List.foldl_nil]
    rw [chatFinal]
    simp [hblank, hp]

/-- Parse function used by the concrete stream examples: the line a
parses to a record with delta A, the line d to a done record, anything
else fails to parse. -/
def testParse : List Char → Option WRecord := fun l =>
  if l = ['a'] then some { response := some ['A'], done := some false }
  else if l = ['d'] then some { response := some [], done := some true }
  else none

/-- Claim C8, counterexample: the stream delivers one complete record
line followed by a chunk with no trailing delimiter, and is then
closed; the generator completes normally with only the complete record,
the unterminated trailing record is discarded in the buffer, and no
error of any kind is raised, where the claim requires a stream error to
surface for a persistent parse failure. -/
theorem c8_counterexample :
    generateStreamResult testParse "r" [['a', '\n'], ['x', 'y']]
      = Except.ok [⟨"r", ['A'], false⟩]
    ∧ (generateStreamRun testParse "r" [['a', '\n'], ['x', 'y']]).2 = ['x', 'y'] := by
  exact ⟨rfl, rfl⟩

/-- Claim C8 witness: the amended theorem instantiated on concrete
streams over testParse, every hypothesis discharged by computation. -/
theorem c8_amended_witness :
    generateStreamRun testParse "r" [['a', '\n'], ['x']]
      = (processLines testParse "r" (splitBuf (List.flatten [['a', '\n'], ['x']])).1,
         (splitBuf (List.flatten [['a', '\n'], ['x']])).2)
    ∧ (generateStreamRun testParse "r" [['x', 'y']]).1.yields = []
    ∧ processLines testParse "r" ([['a']] ++ ['z'] :: [])
        = processLines testParse "r" ([['a']] ++ [])
    ∧ generateChatStreamRun testParse "r" [['a']]
        = [toChatStreamChunk "r" { response := some ['A'], content := none, done := some false }] :=
  ⟨c8_amended.1 testParse "r" [['a', '\n'], ['x']],
   c8_amended.2.1 testParse "r" ['x', 'y'] (by decide),
   c8_amended.2.2.1 testParse "r" [['a']] ['z'] [] (by decide),
   c8_amended.2.2.2 testParse "r" ['a'] _ (by decide) (by decide) (by decide)⟩

theorem streamFramesAux_usage (echo : Bool) (promptText rid model : String)
    (created : Nat) :
    ∀ (cs : List StreamChunkIn) (tot : String) (f : StreamFrame),
      f ∈ streamFramesAux echo promptText rid model created tot cs →
      f.usage = none := by
  intro cs
  induction cs with
  | nil => intro tot f hf; simp [streamFramesAux] at hf
  | cons c cs ih =>
    intro tot f hf
    rw [streamFramesAux] at hf
    rcases List.mem_cons.mp hf with rfl | hf
    · rfl
    · exact ih _ f hf

/-- Claim C9: a streaming completions response is the content frames
followed by exactly one final frame and then the DONE sentinel; the
final frame carries the usage block exactly when include_usage is set,
with total_tokens the sum of the two counts, and no content frame ever
carries usage. -/
theorem c9_usage_gating : ∀ (echo iu : Bool) (promptText rid model : String)
    (created : Nat) (chunks : List StreamChunkIn) (result : OResult),
    streamingEvents echo iu promptText rid model created chunks result
      = (streamFrames echo promptText rid model created chunks).map SSE.frame
        ++ [SSE.frame (finalFrame iu rid model created result), SSE.doneSentinel]
    ∧ ((finalFrame iu rid model created result).usage.isSome ↔ iu = true)
    ∧ (finalFrame iu rid model created result).usage
        = (if iu then
             some ⟨result.prompt_eval_count.getD 0, result.eval_count.getD 0,
               result.prompt_eval_count.getD 0 + result.eval_count.getD 0⟩
           else none)
    ∧ (∀ f ∈ streamFrames echo promptText rid model created chunks,
        f.usage = none) := by
  intro echo iu promptText rid model created chunks result
  refine ⟨rfl, ?_, rfl, ?_⟩
  · cases iu <;> simp [finalFrame]
  · intro f hf
    exact streamFramesAux_usage echo promptText rid model created chunks "" f hf

/-- Completion metadata used by the C9 witness. -/
def oRes1 : OResult := { prompt_eval_count := some 1, eval_count := some 2 }

/-- The single content frame of the C9 witness stream. -/
def frame1 : StreamFrame := ⟨"cmpl-r", 7, "m", "a", none, none⟩

/-- Claim C9 witness: the gating theorem instantiated with include_usage
set on a one chunk stream, the frame membership hypothesis discharged
by computation. -/
theorem c9_usage_gating_witness :
    ((finalFrame true "r" "m" 7 oRes1).usage.isSome ↔ true = true)
    ∧ frame1.usage = none :=
  ⟨(c9_usage_gating false true "p" "r" "m" 7 [{ response := some "a" }] oRes1).2.1,
   (c9_usage_gating false true "p" "r" "m" 7 [{ response := some "a" }] oRes1).2.2.2
     frame1 (by decide)⟩

/-- JSON body of an Ollama generate response as spread by
generateResponse (OllamaService.ts lines 151 to 154), including the id
field the worker may itself supply. -/
structure OllamaGenData where
  id : Option String := none
  model : Option String := none
  created_at : Option String := none
  response : Option String := none
  done : Option Bool := none
  done_reason : Option String := none
  context : Option (List Nat) := none
  total_duration : Option Nat := none
  load_duration : Option Nat := none
  prompt_eval_count : Option Nat := none
  eval_count : Option Nat := none
deriving DecidableEq

/-- The InferenceResponse object returned to the caller of the worker
adapter. -/
structure InferenceResponseE where
  id : String
  model : Option String := none
  created_at : Option String := none
  response : Option String := none
  done : Option Bool := none
  done_reason : Option String := none
  context : Option (List Nat) := none
  total_duration : Option Nat := none
  load_duration : Option Nat := none
  prompt_eval_count : Option Nat := none
  eval_count : Option Nat := none
  embeddings : Option (List (List Rat)) := none
deriving DecidableEq

/-- Result construction of generateResponse: the spread of the worker
body followed by the id override, so every field of the body is copied
and id is set to the request id last. -/
def generateResponseResult (requestId : String) (d : OllamaGenData) :
    InferenceResponseE :=
  { id := requestId
    model := d.model
    created_at := d.created_at
    response := d.response
    done := d.done
    done_reason := d.done_reason
    context := d.context
    total_duration := d.total_duration
    load_duration := d.load_duration
    prompt_eval_count := d.prompt_eval_count
    eval_count := d.eval_count }

/-- JSON body of an Ollama embed response as read by generateEmbedding
(OllamaService.ts lines 542 to 558). -/
structure OllamaEmbedData where
  id : Option String := none
  model : Option String := none
  embeddings : Option (List (List Rat)) := none
  total_duration : Option Nat := none
  load_duration : Option Nat := none
  prompt_eval_count : Option Nat := none
deriving DecidableEq

/-- Result construction of generateEmbedding: an explicit object whose
id is the request id; the body id is never read. -/
def generateEmbeddingResult (requestId : String) (d : OllamaEmbedData) :
    InferenceResponseE :=
  { id := requestId
    model := d.model
    embeddings := d.embeddings
    total_duration := d.total_duration
    load_duration := d.load_duration
    prompt_eval_count := d.prompt_eval_count }

/-- Claim C10: the id of the object returned by the non-streaming
generate and by the embedding operation is always the request id, and
the value of the id field in the worker body has no influence at all on
the returned object. -/
theorem c10_id_override : ∀ (requestId : String) (g : OllamaGenData)
    (em : OllamaEmbedData) (wid wid2 : Option String),
    (generateResponseResult requestId g).id = requestId
    ∧ (generateEmbeddingResult requestId em).id = requestId
    ∧ generateResponseResult requestId { g with id := wid }
        = generateResponseResult requestId g
    ∧ generateEmbeddingResult requestId { em with id := wid2 }
        = generateEmbeddingResult requestId em := by
  intro requestId g em wid wid2
  exact ⟨rfl, rfl, rfl, rfl⟩
